import Mathlib

set_option maxHeartbeats 1000000

/-
  Verification development for the smartace semantic lowering pipeline.

  The definitions below are a shallow embedding of the C++ sources:
  - libsolidity/modelcheck/translation/Expression.cpp (ExpressionConverter)
  - libsolidity/modelcheck/harness/StateGenerator.cpp  (StateGenerator)
  - libsolidity/modelcheck/scheduler/MainFunction.cpp  (MainFunctionGenerator)
  - libsolidity/modelcheck/utils/KeyIterator.cpp       (KeyIterator)
  - libsolidity/modelcheck/model/Block.h               (ModifierBlockConverter)

  Machinery that the translation layer uses but whose implementation is not
  part of the sources at hand (CFuncCallBuilder argument wrapping,
  HarnessUtilities, the modifier chain printer) is modelled from the
  specification; every such definition carries a doc comment starting with
  "Modelled from the spec:".
-/

namespace Smartace

/-- Target-language (C) expression trees, mirroring the SimpleCGenerator node
types used by the converter: CIdentifier, CIntLiteral, CMemberAccess,
CReference, CDereference, CUnaryOp, CBinaryOp, CCond and CFuncCall. -/
inductive CExpr where
  | ident (name : String) (ptr : Bool)
  | intLit (n : Int)
  | member (base : CExpr) (field : String)
  | ref (e : CExpr)
  | deref (e : CExpr)
  | unOp (op : String) (e : CExpr) (pre : Bool)
  | binOp (lhs : CExpr) (op : String) (rhs : CExpr)
  | condE (c t f : CExpr)
  | call (fn : String) (args : List CExpr)

/-- Type encodings consumed by the converter (the TypeAnalyzer output): a
wrapped scalar (a struct with single field `v`, named by its C type name), a
specialized mapping (named by its TypeAnalyzer name, with key and value
types), contract and struct nominal types, and a catch-all for the remaining
non-wrapped encodings. -/
inductive SolType where
  | wrapped (ctype : String)
  | mapping (name : String) (key val : SolType)
  | contractTy (name : String)
  | structTy (name : String)
  | raw
  deriving Repr, DecidableEq

/-- Mirrors is_wrapped_type from utils/Types: true exactly on wrapped scalar
encodings. -/
def is_wrapped_type : SolType → Bool
  | .wrapped _ => true
  | _ => false

/-- Solidity operator tokens reachable by the converter fragment. Token.sar
is the arithmetic right shift that solc assigns to a source-level p >> q
(the logical variant spelled with three angle brackets is Token.shr). -/
inductive Token where
  | add | sub | mul | div | mod | exp
  | shl | sar | shr
  | bitAnd | bitOr | bitXor
  | logAnd | logOr
  | eq | neq | lt | gt | le | ge
  | not | bitNot | inc | dec | delete
  deriving Repr, DecidableEq

/-- Mirrors TokenTraits::friendlyName for the tokens of the fragment. -/
def friendlyName : Token → String
  | .add => "+" | .sub => "-" | .mul => "*" | .div => "/" | .mod => "%"
  | .exp => "**"
  | .shl => "<<" | .sar => ">>" | .shr => ">>>"
  | .bitAnd => "&" | .bitOr => "|" | .bitXor => "^"
  | .logAnd => "&&" | .logOr => "||"
  | .eq => "==" | .neq => "!=" | .lt => "<" | .gt => ">" | .le => "<=" | .ge => ">="
  | .not => "!" | .bitNot => "~" | .inc => "++" | .dec => "--"
  | .delete => "delete"

/-- Source expressions of the converter fragment. Identifiers carry the
rewritten name produced by VariableScopeResolver::resolve_identifier and the
TypeAnalyzer is_pointer flag, both of which are inputs to this component.
An assignment carries `some op` when it is the compound assignment whose
TokenTraits::AssignmentToBinaryOp image is `op`, and `none` for plain `=`.
FunctionCall nodes of kind Transfer and Send carry the destination (the base
of the sniffed MemberAccess) and the argument list. -/
inductive SolExpr where
  | ident (cname : String) (ptr : Bool) (ty : SolType)
  | lit (n : Int)
  | index (base keyExpr : SolExpr) (ty : SolType)
  | member (base : SolExpr) (field : String) (ty : SolType)
  | unOp (op : Token) (e : SolExpr) (pre : Bool)
  | binOp (lhs : SolExpr) (op : Token) (rhs : SolExpr)
  | assign (compound : Option Token) (lhs rhs : SolExpr)
  | transferCall (dst : SolExpr) (args : List SolExpr)
  | sendCall (dst : SolExpr) (args : List SolExpr)

/-- Resolved type annotation of an expression (every expression of the
consumed AST carries one). Operator and call nodes of the fragment are not
queried for their own type by the converter, so they report the catch-all. -/
def SolExpr.tyOf : SolExpr → SolType
  | .ident _ _ ty => ty
  | .lit _ => .raw
  | .index _ _ ty => ty
  | .member _ _ ty => ty
  | .unOp _ _ _ => .raw
  | .binOp _ _ _ => .raw
  | .assign _ _ _ => .raw
  | .transferCall _ _ => .raw
  | .sendCall _ _ => .raw

/-- Modelled from the spec: CFuncCallBuilder::push with an expected type
(utils/Function.h, whose implementation is not among the sources) wraps the
converted argument in the Init constructor of the expected wrapped type
(FunctionUtilities::try_to_wrap); fixed by the expected strings of
BlockConversionTests (Init_sol_int256_t(1), Init_sol_address_t(... .v)). -/
def wrapArg (expected : SolType) (e : CExpr) : CExpr :=
  match expected with
  | .wrapped ctype => .call ("Init_" ++ ctype) [e]
  | _ => e

/-- Mirrors LValueSniffer of utils/AST applied to the left hand side of an
assignment: it reports the node when the l-value is directly of the sniffed
shape (BlockConversionTests map_assignment fixes that a member access over an
index access is not itself sniffed as an IndexAccess). -/
def sniffIdent : SolExpr → Option (String × Bool × SolType)
  | .ident cname ptr ty => some (cname, ptr, ty)
  | _ => none

/-- Shallow embedding of ExpressionConverter (translation/Expression.cpp).
The two visitor flags m_find_ref and m_lval are threaded explicitly; a fresh
converter (as built by CFuncCallBuilder::push) starts with m_lval unset and
m_find_ref equal to its _is_ref argument. Unsupported constructs raise the
runtime_error messages of the source. The IndexAccess case inlines
generate_mapping_call, whose builder pushes the base expression with _ref set
and the index expression against the key type of the map. -/
def convertExpr : SolExpr → Bool → Bool → Except String CExpr
  | .ident cname ptr _ty, findRef, _lval =>
      -- visit(Identifier): resolve, then reference or unwrap.
      let base := CExpr.ident cname ptr
      if findRef then .ok (.ref base)
      else if is_wrapped_type (SolExpr.tyOf (.ident cname ptr _ty)) then
        .ok (.member base "v")
      else .ok base
  | .lit n, _, _ => .ok (.intLit n)
  | .unOp op e pre, findRef, lval => do
      -- visit(UnaryOperation): the operand is visited before the Delete check.
      let sub ← convertExpr e findRef lval
      if op = .delete then .error "Delete not yet supported."
      else .ok (.unOp (friendlyName op) sub pre)
  | .binOp lhs op rhs, findRef, lval => do
      -- visit(BinaryOperation) via generate_binary_op.
      let l ← convertExpr lhs findRef lval
      let r ← convertExpr rhs findRef lval
      if op = .sar ∨ op = .shr ∨ op = .exp then
        .error ("Unsupported binary operator:" ++ friendlyName op)
      else .ok (.binOp l (friendlyName op) r)
  | .index base keyExpr ty, findRef, lval =>
      -- visit(IndexAccess): only mapping bases are supported.
      match base.tyOf with
      | .mapping mapName keyT _valT => do
          let b ← convertExpr base true false
          let k ← convertExpr keyExpr false false
          let mk : String → CExpr := fun op =>
            .call (op ++ "_" ++ mapName) [b, wrapArg keyT k]
          let res :=
            if findRef then mk "Ref"
            else if lval then .deref (mk "Ref")
            else mk "Read"
          .ok (if is_wrapped_type ty then .member res "v" else res)
      | _ => .error "IndexAccess applied to unsupported type."
  | .member base field ty, findRef, lval =>
      -- visit(MemberAccess): m_find_ref is scoped to false around the
      -- sub-visit; contract and struct bases go through print_adt_member,
      -- whose field rewrite is VariableScopeResolver::rewrite in the STRUCT
      -- context (spec 4.7: struct fields become user_<name>).
      match base.tyOf with
      | .contractTy _ => do
          let b ← convertExpr base false lval
          let sub := CExpr.member b ("user_" ++ field)
          if findRef then .ok (.ref sub)
          else if is_wrapped_type ty then .ok (.member sub "v")
          else .ok sub
      | .structTy _ => do
          let b ← convertExpr base false lval
          let sub := CExpr.member b ("user_" ++ field)
          if findRef then .ok (.ref sub)
          else if is_wrapped_type ty then .ok (.member sub "v")
          else .ok sub
      | _ => .error "MemberAccess applied to invalid type."
  -- visit(Assignment). LValueSniffer<Identifier> first detects contract
  -- instantiation; that branch forwards to the right hand side. Otherwise
  -- the right hand side is established with m_find_ref swapped to
  -- (ID && is_pointer ID) -- false when no identifier is sniffed -- where a
  -- compound assignment expands through generate_binary_op applied to the
  -- two sides; then the left hand side is equated under m_lval, and an
  -- IndexAccess l-value becomes a Write call via generate_mapping_call.
  -- The case split on the sniffed l-value is lifted into the patterns.
  | .assign _compound (.ident _cn _p (.contractTy _c)) rhs, findRef, lval =>
      convertExpr rhs findRef lval
  | .assign compound (.ident cn p ity) rhs, findRef, lval => do
      let rhsC ← match compound with
        | some op => do
            let l ← convertExpr (.ident cn p ity) p lval
            let r ← convertExpr rhs p lval
            if op = .sar ∨ op = .shr ∨ op = .exp then
              .error ("Unsupported binary operator:" ++ friendlyName op)
            else .ok (CExpr.binOp l (friendlyName op) r)
        | none => convertExpr rhs p lval
      let lc ← convertExpr (.ident cn p ity) findRef true
      .ok (CExpr.binOp lc "=" rhsC)
  | .assign compound (.index ibase ikey ity) rhs, _findRef, lval => do
      let rhsC ← match compound with
        | some op => do
            let l ← convertExpr (.index ibase ikey ity) false lval
            let r ← convertExpr rhs false lval
            if op = .sar ∨ op = .shr ∨ op = .exp then
              .error ("Unsupported binary operator:" ++ friendlyName op)
            else .ok (CExpr.binOp l (friendlyName op) r)
        | none => convertExpr rhs false lval
      match ibase.tyOf with
      | .mapping mapName keyT valT => do
          let b ← convertExpr ibase true false
          let k ← convertExpr ikey false false
          .ok (CExpr.call ("Write_" ++ mapName)
                [b, wrapArg keyT k, wrapArg valT rhsC])
      | _ => .error "IndexAccess applied to unsupported type."
  | .assign compound lhs rhs, findRef, lval => do
      let rhsC ← match compound with
        | some op => do
            let l ← convertExpr lhs false lval
            let r ← convertExpr rhs false lval
            if op = .sar ∨ op = .shr ∨ op = .exp then
              .error ("Unsupported binary operator:" ++ friendlyName op)
            else .ok (CExpr.binOp l (friendlyName op) r)
        | none => convertExpr rhs false lval
      let lc ← convertExpr lhs findRef true
      .ok (CExpr.binOp lc "=" rhsC)
  -- print_function dispatches Transfer and Send alike to print_payment,
  -- whose builder name is the literal "_pay" and whose two typed arguments
  -- are pushed against payable-address and uint256 types.
  | .transferCall dst [amt], _, _ => do
      let bal := CExpr.ref (.member (.ident "self" true) "model_balance")
      let d ← convertExpr dst false false
      let a ← convertExpr amt false false
      .ok (CExpr.call "_pay"
            [bal, wrapArg (.wrapped "sol_address_t") d,
             wrapArg (.wrapped "sol_uint256_t") a])
  | .transferCall _ _, _, _ => .error "Payment calls require payment amount."
  | .sendCall dst [amt], _, _ => do
      let bal := CExpr.ref (.member (.ident "self" true) "model_balance")
      let d ← convertExpr dst false false
      let a ← convertExpr amt false false
      .ok (CExpr.call "_pay"
            [bal, wrapArg (.wrapped "sol_address_t") d,
             wrapArg (.wrapped "sol_uint256_t") a])
  | .sendCall _ _, _, _ => .error "Payment calls require payment amount."

/-- Spelled-out form of a mapping helper call as the converter emits it:
Op_<map>(base, key) with the key wrapped against the key type. Used only in
theorem statements. -/
def mappingCall (op mapName : String) (b : CExpr) (keyT : SolType) (k : CExpr) :
    CExpr :=
  .call (op ++ "_" ++ mapName) [b, wrapArg keyT k]

/-- Unwrap through the member v exactly when the type is a wrapped scalar.
Used only in theorem statements. -/
def unwrapIf (ty : SolType) (e : CExpr) : CExpr :=
  if is_wrapped_type ty then .member e "v" else e

/-- Reduction of the Except monad bind on a success value. -/
theorem exc_bind_ok {ep a b : Type} (x : a) (f : a → Except ep b) :
    (Except.ok x : Except ep a) >>= f = f x := rfl

/-- Reduction of the Except monad bind on an error value. -/
theorem exc_bind_error {ep a b : Type} (e : ep) (f : a → Except ep b) :
    (Except.error e : Except ep a) >>= f = Except.error e := rfl

/-- Outermost shape test: the emitted expression textually ends with the
member access .v exactly when its root is a member access on field v. -/
def endsWithV : CExpr → Bool
  | .member _ f => f == "v"
  | _ => false

/-- C1: for every IndexAccess expression whose base is of mapping type, the
converter emits exactly one of three forms chosen by the context flags:
find_ref set gives Ref_<map>(base, key); the l-value flag (without find_ref)
gives the dereferenced Ref_<map>(base, key); otherwise Read_<map>(base, key);
and a wrapped-scalar result type suffixes the member access .v onto the whole
emitted call. -/
theorem c1_index_access_modes (base keyE : SolExpr) (ty : SolType)
    (mapName : String) (keyT valT : SolType) (findRef lval : Bool)
    (b k : CExpr)
    (hbase : base.tyOf = .mapping mapName keyT valT)
    (hb : convertExpr base true false = .ok b)
    (hk : convertExpr keyE false false = .ok k) :
    convertExpr (.index base keyE ty) findRef lval =
      .ok (unwrapIf ty
            (if findRef then mappingCall "Ref" mapName b keyT k
             else if lval then .deref (mappingCall "Ref" mapName b keyT k)
             else mappingCall "Read" mapName b keyT k)) := by
  simp only [convertExpr, hbase, hb, hk, Except.bind, unwrapIf, mappingCall]
  rfl

/-- C1 witness: the read-only access of BlockConversionTests (scenario S2
restricted to one key), a[1] with a of map type, lowers to the unwrapped
Read_Map_2 call. -/
theorem c1_index_access_modes_witness :
    convertExpr
      (.index
        (.ident "self->user_a" false
          (.mapping "Map_2" (.wrapped "sol_int256_t") (.wrapped "sol_int256_t")))
        (.lit 1) (.wrapped "sol_int256_t")) false false =
      .ok (.member
            (.call "Read_Map_2"
              [.ref (.ident "self->user_a" false),
               .call "Init_sol_int256_t" [.intLit 1]]) "v") := by
  simpa [unwrapIf, mappingCall, wrapArg, is_wrapped_type] using
    c1_index_access_modes
      (.ident "self->user_a" false
        (.mapping "Map_2" (.wrapped "sol_int256_t") (.wrapped "sol_int256_t")))
      (.lit 1) (.wrapped "sol_int256_t") "Map_2"
      (.wrapped "sol_int256_t") (.wrapped "sol_int256_t") false false
      (.ref (.ident "self->user_a" false)) (.intLit 1) rfl rfl rfl

/-- C2: an assignment whose left-hand side is an IndexAccess on a map lowers
to Write_<map>(base, key, rhs); a compound assignment first expands its
right-hand side to (the Read lowering of the left-hand side) op rhs, so that
a[1] += 2 becomes Write_Map_2(.., Init_sol_int256_t(((Read_Map_2(..)).v)+(2))).
The statement covers every non-fatal operator; the witness is scenario S3. -/
theorem c2_map_write (ibase ikey rhs : SolExpr) (ity : SolType)
    (mapName : String) (keyT valT : SolType) (findRef : Bool)
    (cop : Option Token) (b k r : CExpr)
    (hbase : ibase.tyOf = .mapping mapName keyT valT)
    (hb : convertExpr ibase true false = .ok b)
    (hk : convertExpr ikey false false = .ok k)
    (hr : convertExpr rhs false false = .ok r)
    (hop : ∀ op, cop = some op → ¬(op = .sar ∨ op = .shr ∨ op = .exp)) :
    convertExpr (.assign cop (.index ibase ikey ity) rhs) findRef false =
      .ok (.call ("Write_" ++ mapName)
            [b, wrapArg keyT k,
             wrapArg valT
               (match cop with
                | none => r
                | some op =>
                    .binOp (unwrapIf ity (mappingCall "Read" mapName b keyT k))
                      (friendlyName op) r)]) := by
  cases cop with
  | none =>
      simp only [convertExpr, hbase, hb, hk, hr]
      rfl
  | some op =>
      have hops := hop op rfl
      simp only [convertExpr, hbase, hb, hk, hr, if_neg hops, unwrapIf,
        mappingCall]
      rfl

/-- C2 witness: scenario S3 of the spec, the compound map assignment
a[1] += 2, lowers to the expected Write_Map_2 call of
BlockConversionTests map_assignment. -/
theorem c2_map_write_witness :
    convertExpr
      (.assign (some .add)
        (.index
          (.ident "self->user_a" false
            (.mapping "Map_2" (.wrapped "sol_int256_t")
              (.wrapped "sol_int256_t")))
          (.lit 1) (.wrapped "sol_int256_t"))
        (.lit 2)) false false =
      .ok (.call "Write_Map_2"
            [.ref (.ident "self->user_a" false),
             .call "Init_sol_int256_t" [.intLit 1],
             .call "Init_sol_int256_t"
               [.binOp
                 (.member
                   (.call "Read_Map_2"
                     [.ref (.ident "self->user_a" false),
                      .call "Init_sol_int256_t" [.intLit 1]]) "v")
                 "+" (.intLit 2)]]) := by
  simpa [unwrapIf, mappingCall, wrapArg, is_wrapped_type, friendlyName] using
    c2_map_write
      (.ident "self->user_a" false
        (.mapping "Map_2" (.wrapped "sol_int256_t") (.wrapped "sol_int256_t")))
      (.lit 1) (.lit 2) (.wrapped "sol_int256_t") "Map_2"
      (.wrapped "sol_int256_t") (.wrapped "sol_int256_t") false (some .add)
      (.ref (.ident "self->user_a" false)) (.intLit 1) (.intLit 2)
      rfl rfl rfl rfl (by intro op h; cases h; simp)

/-- C3 counterexample: the claim states that an l-value occurrence of a
wrapped-type expression is emitted without the trailing member access .v;
but for the assignment a = 5 onto a wrapped identifier (the input of
BlockConversionTests named_function_retvars) the converter emits
((func_user_a).v)=(5): visit(Identifier) consults only m_find_ref, never
m_lval, so the l-value target still ends with .v. -/
theorem c3_lvalue_unwrap_cex :
    convertExpr
        (.assign none (.ident "func_user_a" false (.wrapped "sol_int256_t"))
          (.lit 5)) false false =
      .ok (.binOp (.member (.ident "func_user_a" false) "v") "=" (.intLit 5))
    ∧ endsWithV (.member (.ident "func_user_a" false) "v") = true :=
  ⟨rfl, rfl⟩

/-- C3 amended: a wrapped-scalar expression is emitted with a trailing .v
unless a reference to it is requested (m_find_ref): identifiers and struct
member accesses of wrapped type end with .v whenever find_ref is unset --
including l-value occurrences such as assignment targets -- and are emitted
as references (without .v) when find_ref is set; a map index access of
wrapped result type always ends with .v. The l-value flag plays no role in
unwrapping. -/
theorem c3_wrapped_unwrap_amended :
    (∀ (cname : String) (ptr : Bool) (ctype : String) (findRef lval : Bool),
      convertExpr (.ident cname ptr (.wrapped ctype)) findRef lval =
        .ok (if findRef then .ref (.ident cname ptr)
             else .member (.ident cname ptr) "v"))
    ∧ (∀ (base : SolExpr) (field sn ctype : String) (findRef lval : Bool)
        (b : CExpr), base.tyOf = .structTy sn →
        convertExpr base false lval = .ok b →
        convertExpr (.member base field (.wrapped ctype)) findRef lval =
          .ok (if findRef then .ref (.member b ("user_" ++ field))
               else .member (.member b ("user_" ++ field)) "v"))
    ∧ (∀ (base keyE : SolExpr) (ctype : String) (findRef lval : Bool)
        (res : CExpr),
        convertExpr (.index base keyE (.wrapped ctype)) findRef lval =
          .ok res →
        endsWithV res = true) := by
  refine ⟨?_, ?_, ?_⟩
  · intro cname ptr ctype findRef lval
    cases findRef <;> simp [convertExpr, is_wrapped_type, SolExpr.tyOf]
  · intro base field sn ctype findRef lval b hty hb
    cases findRef <;>
      simp only [convertExpr, hty, hb, Except.bind] <;> rfl
  · intro base keyE ctype findRef lval res h
    cases hb : base.tyOf with
    | mapping mapName keyT valT =>
        cases hcb : convertExpr base true false with
        | error e =>
            simp only [convertExpr, hb, hcb, exc_bind_error] at h
            exact Except.noConfusion h
        | ok b =>
            cases hck : convertExpr keyE false false with
            | error e =>
                simp only [convertExpr, hb, hcb, hck, exc_bind_ok,
                  exc_bind_error] at h
                exact Except.noConfusion h
            | ok k =>
                simp only [convertExpr, hb, hcb, hck, exc_bind_ok] at h
                simp [is_wrapped_type] at h
                subst h
                rfl
    | wrapped c =>
        simp only [convertExpr, hb] at h
        exact Except.noConfusion h
    | contractTy c =>
        simp only [convertExpr, hb] at h
        exact Except.noConfusion h
    | structTy c =>
        simp only [convertExpr, hb] at h
        exact Except.noConfusion h
    | raw =>
        simp only [convertExpr, hb] at h
        exact Except.noConfusion h

/-- C3 amended witness: the wrapped identifier func_user_a in l-value
position (find_ref unset) is emitted with the trailing .v. -/
theorem c3_wrapped_unwrap_amended_witness :
    convertExpr (.ident "func_user_a" false (.wrapped "sol_int256_t"))
        false true =
      .ok (.member (.ident "func_user_a" false) "v") := by
  simpa using
    c3_wrapped_unwrap_amended.1 "func_user_a" false "sol_int256_t" false true

/-- C5 divergence: print_function routes both Transfer and Send through
print_payment, and print_payment always names its builder with the literal
"_pay": the Send call dst.send(10) -- the failing input, from the
payment_function_calls test -- is therefore emitted as a _pay call, not as
the _pay_use_rv variant that the claim, the spec and the repository's own
test BlockConversionTests payment_function_calls expect. The second and
third conjuncts record the parts of the claim the code does satisfy: the
Transfer form and the fatal error on an argument list without exactly one
element. -/
theorem c5_send_emits_pay :
    convertExpr
        (.sendCall (.ident "func_user_dst" false (.wrapped "sol_address_t"))
          [.lit 10]) false false =
      .ok (.call "_pay"
            [.ref (.member (.ident "self" true) "model_balance"),
             .call "Init_sol_address_t"
               [.member (.ident "func_user_dst" false) "v"],
             .call "Init_sol_uint256_t" [.intLit 10]])
    ∧ convertExpr
        (.transferCall
          (.ident "func_user_dst" false (.wrapped "sol_address_t"))
          [.lit 5]) false false =
      .ok (.call "_pay"
            [.ref (.member (.ident "self" true) "model_balance"),
             .call "Init_sol_address_t"
               [.member (.ident "func_user_dst" false) "v"],
             .call "Init_sol_uint256_t" [.intLit 5]])
    ∧ convertExpr
        (.sendCall (.ident "func_user_dst" false (.wrapped "sol_address_t"))
          []) false false =
      .error "Payment calls require payment amount." :=
  ⟨rfl, rfl, rfl⟩

/-- C7: generate_binary_op raises the fatal unsupported-operator error
exactly on the tokens SAR (the arithmetic right shift of signed operands),
SHR and Exp, and lowers every other binary operation structurally under the
operator's friendly name; visit(UnaryOperation) raises the fatal error
exactly on Delete and lowers every other unary operation structurally. -/
theorem c7_operator_lowering :
    (∀ (l r : SolExpr) (op : Token) (findRef lval : Bool) (lc rc : CExpr),
      convertExpr l findRef lval = .ok lc →
      convertExpr r findRef lval = .ok rc →
      convertExpr (.binOp l op r) findRef lval =
        (if op = .sar ∨ op = .shr ∨ op = .exp then
          .error ("Unsupported binary operator:" ++ friendlyName op)
         else .ok (.binOp lc (friendlyName op) rc)))
    ∧ (∀ (e : SolExpr) (op : Token) (pre findRef lval : Bool) (sub : CExpr),
      convertExpr e findRef lval = .ok sub →
      convertExpr (.unOp op e pre) findRef lval =
        (if op = .delete then .error "Delete not yet supported."
         else .ok (.unOp (friendlyName op) sub pre))) := by
  constructor
  · intro l r op findRef lval lc rc hl hr
    simp only [convertExpr, hl, hr, exc_bind_ok]
  · intro e op pre findRef lval sub he
    simp only [convertExpr, he, exc_bind_ok]

/-- C7 witness: the shift of signed operands and the exponentiation are
fatal, while an addition and a logical negation lower structurally. -/
theorem c7_operator_lowering_witness :
    convertExpr (.binOp (.lit 1) .sar (.lit 2)) false false =
      .error "Unsupported binary operator:>>"
    ∧ convertExpr (.binOp (.lit 1) .exp (.lit 2)) false false =
      .error "Unsupported binary operator:**"
    ∧ convertExpr (.binOp (.lit 1) .add (.lit 2)) false false =
      .ok (.binOp (.intLit 1) "+" (.intLit 2))
    ∧ convertExpr (.unOp .delete (.lit 1) true) false false =
      .error "Delete not yet supported."
    ∧ convertExpr (.unOp .not (.lit 1) true) false false =
      .ok (.unOp "!" (.intLit 1) true) := by
  refine ⟨?_, ?_, ?_, ?_, ?_⟩
  · simpa [friendlyName] using
      (c7_operator_lowering.1 (.lit 1) (.lit 2) .sar false false
        (.intLit 1) (.intLit 2) rfl rfl)
  · simpa [friendlyName] using
      (c7_operator_lowering.1 (.lit 1) (.lit 2) .exp false false
        (.intLit 1) (.intLit 2) rfl rfl)
  · simpa [friendlyName] using
      (c7_operator_lowering.1 (.lit 1) (.lit 2) .add false false
        (.intLit 1) (.intLit 2) rfl rfl)
  · simpa using
      (c7_operator_lowering.2 (.lit 1) .delete true false false
        (.intLit 1) rfl)
  · simpa [friendlyName] using
      (c7_operator_lowering.2 (.lit 1) .not true false false
        (.intLit 1) rfl)

/-! Modifier chains (model/Block.h, ModifierBlockConverter and its Factory).
The header declares the per-modifier converter, its filtered modifier list
and the M_NEXT_CALL name threaded into each converter; the bodies live in a
translation unit that is not among the sources, so the chain construction is
modelled from the specification (section 4.9) and pinned by the
modifier_nesting expectations of BlockConversionTests. -/

/-- Statements of a modifier body as the block converter sees them: the
placeholder statement, a return, or any other statement (kept opaque). -/
inductive MStmt where
  | placeholder
  | ret
  | other (tag : Nat)
  deriving Repr, DecidableEq

/-- Lowered statements of an emitted function body: a call to the next
function in the modifier chain, a return, or an opaque statement. -/
inductive LStmt where
  | callNext (fn : String)
  | ret
  | other (tag : Nat)
  deriving Repr, DecidableEq

/-- Modelled from the spec: the name of the i-th function of the modifier
chain of a function whose exported name is f with n modifiers (spec 4.9:
Method_C_Funcf to Method_C_Funcf_mod0 to ... to Method_C_Funcf_base); index
n denotes the base body function. -/
def chainName (f : String) (n i : Nat) : String :=
  if i = n then f ++ "_base" else f ++ "_mod" ++ toString i

/-- Modelled from the spec: the ModifierBlockConverter lowering of one
modifier body, with every placeholder statement lowered into a call to the
next function in the chain (M_NEXT_CALL). -/
def lowerModBody (nextCall : String) : List MStmt → List LStmt :=
  List.map fun s =>
    match s with
    | .placeholder => .callNext nextCall
    | .ret => .ret
    | .other t => .other t

/-- Modelled from the spec: the list of functions emitted for a function
with exported name f, base body baseBody (already lowered by the function
block converter) and filtered modifier bodies mods, threading each modifier
its successor's name. -/
def chainFuncs (f : String) (n : Nat) : Nat → List (List MStmt) →
    List (String × List LStmt)
  | _, [] => []
  | i, m :: rest =>
      (chainName f n i, lowerModBody (chainName f n (i + 1)) m)
        :: chainFuncs f n (i + 1) rest

/-- Modelled from the spec: the full emission for one function (spec 4.9):
with no modifiers the exported method is the base body itself; otherwise the
exported method wraps (calls) the first modifier function, the modifiers
follow in chain order, and the base body function closes the chain. -/
def emitFuncChain (f : String) (baseBody : List LStmt)
    (mods : List (List MStmt)) : List (String × List LStmt) :=
  if mods.length = 0 then [(f, baseBody)]
  else
    (f, [LStmt.callNext (chainName f mods.length 0)])
      :: chainFuncs f mods.length 0 mods
      ++ [(f ++ "_base", baseBody)]

/-- Lookup lemma for chainFuncs: the element at offset j holds the
(start+j)-th chain function with its placeholders redirected to the
(start+j+1)-th name. -/
theorem chainFuncs_get (f : String) (n : Nat) :
    ∀ (ms : List (List MStmt)) (start j : Nat) (hj : j < ms.length),
      (chainFuncs f n start ms)[j]? =
        some (chainName f n (start + j),
              lowerModBody (chainName f n (start + j + 1)) (ms.get ⟨j, hj⟩)) := by
  intro ms
  induction ms with
  | nil => intro start j hj; cases hj
  | cons m rest ih =>
      intro start j hj
      cases j with
      | zero => simp [chainFuncs]
      | succ j =>
          have hj2 : j < rest.length := Nat.lt_of_succ_lt_succ hj
          simp only [chainFuncs, List.getElem?_cons_succ]
          rw [ih (start + 1) j hj2]
          have e1 : start + 1 + j = start + (j + 1) := by omega
          rw [e1]
          rfl

theorem chainFuncs_length (f : String) (n : Nat) :
    ∀ (ms : List (List MStmt)) (start : Nat),
      (chainFuncs f n start ms).length = ms.length := by
  intro ms
  induction ms with
  | nil => intro start; rfl
  | cons m rest ih => intro start; simp [chainFuncs, ih]

/-- C4: for every function f with n declared non-constructor-call modifiers,
the emitted chain consists of the exported method wrapping (calling) the
first modifier function, the n modifier functions in order -- where every
placeholder statement inside the i-th modifier body is lowered to a call to
the (i+1)-th modifier function, and the placeholder in the last modifier
calls the base body function -- followed by the base body function; for a
function with no modifiers the exported method is the base body itself. -/
theorem c4_modifier_chain (f : String) (baseBody : List LStmt)
    (mods : List (List MStmt)) :
    (mods.length = 0 → emitFuncChain f baseBody mods = [(f, baseBody)])
    ∧ (0 < mods.length →
        (emitFuncChain f baseBody mods)[0]? =
            some (f, [LStmt.callNext (chainName f mods.length 0)])
        ∧ (emitFuncChain f baseBody mods)[mods.length + 1]? =
            some (f ++ "_base", baseBody)
        ∧ (emitFuncChain f baseBody mods).length = mods.length + 2)
    ∧ (∀ i (hi : i < mods.length),
        (emitFuncChain f baseBody mods)[i + 1]? =
          some (chainName f mods.length i,
                lowerModBody (chainName f mods.length (i + 1))
                  (mods.get ⟨i, hi⟩)))
    ∧ (∀ i (hi : i < mods.length) (j : Nat),
        (mods.get ⟨i, hi⟩)[j]? = some .placeholder →
        (lowerModBody (chainName f mods.length (i + 1))
            (mods.get ⟨i, hi⟩))[j]? =
          some (.callNext
            (if i + 1 = mods.length then f ++ "_base"
             else f ++ "_mod" ++ toString (i + 1)))) := by
  refine ⟨?_, ?_, ?_, ?_⟩
  · intro h
    simp [emitFuncChain, h]
  · intro h
    have hne : mods.length ≠ 0 := Nat.pos_iff_ne_zero.mp h
    refine ⟨?_, ?_, ?_⟩
    · simp [emitFuncChain, hne]
    · simp only [emitFuncChain, if_neg hne, List.getElem?_cons_succ]
      rw [List.getElem?_append_right
        (by simp [chainFuncs_length])]
      simp [chainFuncs_length]
    · simp [emitFuncChain, hne, chainFuncs_length]
  · intro i hi
    have hne : mods.length ≠ 0 := by omega
    simp only [emitFuncChain, if_neg hne, List.getElem?_cons_succ]
    rw [List.getElem?_append_left (by simp [chainFuncs_length, hi])]
    simpa using chainFuncs_get f mods.length mods 0 i hi
  · intro i hi j hs
    simp only [lowerModBody, List.getElem?_map, hs, Option.map_some]
    have : chainName f mods.length (i + 1) =
        (if i + 1 = mods.length then f ++ "_base"
         else f ++ "_mod" ++ toString (i + 1)) := by
      by_cases hc : i + 1 = mods.length <;> simp [chainName, hc]
    rw [this]
    rfl

/-- C4 witness: the modifier_nesting scenario -- a function f with the two
modifiers modA (two placeholders, then return) and modB (one placeholder,
then return) and an empty body -- yields the chain in which the exported
method calls _mod0, the placeholders of _mod0 call _mod1, the placeholder of
_mod1 calls _base, and _base carries the base body. -/
theorem c4_modifier_chain_witness :
    (emitFuncChain "Method_A_Funcf" []
        [[.placeholder, .placeholder, .ret], [.placeholder, .ret]])[0]? =
      some ("Method_A_Funcf", [LStmt.callNext "Method_A_Funcf_mod0"])
    ∧ (emitFuncChain "Method_A_Funcf" []
        [[.placeholder, .placeholder, .ret], [.placeholder, .ret]])[2]? =
      some ("Method_A_Funcf_mod1",
        [LStmt.callNext "Method_A_Funcf_base", LStmt.ret]) := by
  constructor
  · have h := (c4_modifier_chain "Method_A_Funcf" []
      [[.placeholder, .placeholder, .ret], [.placeholder, .ret]]).2.1
      (by decide)
    simpa [chainName] using h.1
  · have h := (c4_modifier_chain "Method_A_Funcf" []
      [[.placeholder, .placeholder, .ret], [.placeholder, .ret]]).2.2.1
      1 (by decide)
    simpa [chainName, lowerModBody] using h

/-! Call-state advancement (harness/StateGenerator.cpp). The emitted
statement sequences of StateGenerator::declare and StateGenerator::update are
embedded as transformers of a record of call-state field values; the
nondeterministic verifier primitives are resolved through an oracle record. -/

/-- Values of the six call-state fields, in the declared order sender, value,
blocknum, timestamp, paid, origin (spec section 3). -/
structure CallStateVals where
  sender : Nat
  value : Nat
  blocknum : Nat
  timestamp : Nat
  paid : Nat
  origin : Nat
  deriving Repr, DecidableEq

/-- Address-space summary data consumed by update: contract_count, size and
the literal address set of the MapIndexSummary. -/
structure AddrData where
  contractCount : Nat
  size : Nat
  literals : List Nat
  deriving Repr, DecidableEq

/-- Modelled from the spec: the verifier primitive nd_range(lo, hi, msg)
(HarnessUtilities::range) produces a nondeterministic value in [lo, hi); an
oracle pick is reduced into the interval. -/
def ndRange (lo hi pick : Nat) : Nat := lo + pick % (hi - lo)

/-- Oracle values resolving the nondeterministic reads of one declare or
update emission. -/
structure StateND where
  stepPick : Nat
  advBlock : Nat
  advTime : Nat
  senderPick : Nat
  declBlock : Nat
  declTime : Nat
  declSender : Nat
  declValue : Nat
  declOrigin : Nat
  deriving Repr, DecidableEq

/-- Modelled from the spec: HarnessUtilities::increase (utils/Harness.h, not
among the sources). Spec 4.12: blocknum and timestamp are monotone
non-decreasing, advancing by a strict step of one in lockstep mode and by a
non-negative nondeterministic amount on every iteration otherwise. -/
def increase (v : Nat) (lockstep : Bool) (nd : Nat) : Nat :=
  if lockstep then v + 1 else v + nd

/-- Lower bound of the sender range in StateGenerator::update: the contract
count, shifted by one more when the literal address 0 is in use. -/
def minSender (ad : AddrData) : Nat :=
  ad.contractCount + (if 0 ∈ ad.literals then 1 else 0)

/-- Embedding of StateGenerator::declare: take_step (when lockstep is on) and
the six fields are declared; blocknum and timestamp are initialized
nondeterministically under lockstep and to zero otherwise, paid is
initialized to one, and the remaining fields keep their arbitrary
declaration values (resolved by the oracle). -/
def declareState (lockstep : Bool) (nd : StateND) : CallStateVals :=
  { sender := nd.declSender
  , value := nd.declValue
  , blocknum := if lockstep then nd.declBlock else 0
  , timestamp := if lockstep then nd.declTime else 0
  , paid := 1
  , origin := nd.declOrigin }

/-- Embedding of StateGenerator::update: paid and origin are skipped;
blocknum and timestamp advance through HarnessUtilities::increase, guarded
by the take_step byte under lockstep; value is reset to zero; sender is
drawn from [contract_count (+1 when literal 0 is used), size). -/
def updateState (lockstep : Bool) (ad : AddrData) (nd : StateND)
    (s : CallStateVals) : CallStateVals :=
  let takeStep := ndRange 0 2 nd.stepPick
  { sender := ndRange (minSender ad) ad.size nd.senderPick
  , value := 0
  , blocknum :=
      if lockstep then
        (if takeStep ≠ 0 then increase s.blocknum true nd.advBlock
         else s.blocknum)
      else increase s.blocknum false nd.advBlock
  , timestamp :=
      if lockstep then
        (if takeStep ≠ 0 then increase s.timestamp true nd.advTime
         else s.timestamp)
      else increase s.timestamp false nd.advTime
  , paid := s.paid
  , origin := s.origin }

/-- C6 counterexample: the claim asserts that blocknum and timestamp are
incremented ONLY when lockstep is enabled and the nondeterministic take_step
flag is set; but with lockstep disabled the update advances blocknum on
every iteration by a nondeterministic amount (StateGenerator.cpp lines
99-117 emit the unguarded step statement in that mode), so an increment
without lockstep is possible: the concrete update below increments blocknum
from 4 to 5 with lockstep disabled. -/
theorem c6_lockstep_only_cex :
    ¬ (∀ (lockstep : Bool) (ad : AddrData) (nd : StateND) (s : CallStateVals),
        s.blocknum < (updateState lockstep ad nd s).blocknum →
        lockstep = true) := by
  intro h
  have := h false ⟨1, 4, []⟩ ⟨0, 1, 1, 0, 0, 0, 0, 0, 0⟩ ⟨2, 3, 4, 5, 1, 6⟩
    (by decide)
  exact Bool.noConfusion this

/-- C6 amended: in every update of the harness loop, value is reset to 0 and
sender is drawn from the client address range [minSender, size), hence
nonzero whenever a contract is deployed or the literal address 0 is
reserved; blocknum and timestamp never decrease, advancing by exactly one
if and only if take_step is set when lockstep is enabled, and by an
arbitrary non-negative nondeterministic amount on every iteration when it is
disabled; paid and origin are left unchanged, and paid stays 1 from its
declaration onward across any sequence of updates. -/
theorem c6_state_update (lockstep : Bool) (ad : AddrData) (nd : StateND)
    (s : CallStateVals)
    (hcc : 1 ≤ ad.contractCount ∨ 0 ∈ ad.literals)
    (hrange : minSender ad < ad.size) :
    ((updateState lockstep ad nd s).value = 0
      ∧ (updateState lockstep ad nd s).sender ≠ 0
      ∧ minSender ad ≤ (updateState lockstep ad nd s).sender
      ∧ (updateState lockstep ad nd s).sender < ad.size)
    ∧ (s.blocknum ≤ (updateState lockstep ad nd s).blocknum
      ∧ s.timestamp ≤ (updateState lockstep ad nd s).timestamp)
    ∧ (lockstep = true →
        (updateState lockstep ad nd s).blocknum =
          (if ndRange 0 2 nd.stepPick ≠ 0 then s.blocknum + 1 else s.blocknum)
        ∧ (updateState lockstep ad nd s).timestamp =
          (if ndRange 0 2 nd.stepPick ≠ 0 then s.timestamp + 1
           else s.timestamp))
    ∧ (lockstep = false →
        (updateState lockstep ad nd s).blocknum = s.blocknum + nd.advBlock
        ∧ (updateState lockstep ad nd s).timestamp =
            s.timestamp + nd.advTime)
    ∧ ((updateState lockstep ad nd s).paid = s.paid
      ∧ (updateState lockstep ad nd s).origin = s.origin)
    ∧ (∀ ndl : List StateND,
        (ndl.foldl (fun t ndi => updateState lockstep ad ndi t)
          (declareState lockstep nd)).paid = 1) := by
  have hmin : 1 ≤ minSender ad := by
    rcases hcc with h1 | h0
    · unfold minSender; omega
    · unfold minSender
      rw [if_pos h0]
      omega
  have hmod : nd.senderPick % (ad.size - minSender ad) <
      ad.size - minSender ad :=
    Nat.mod_lt _ (by omega)
  refine ⟨⟨rfl, ?_, ?_, ?_⟩, ⟨?_, ?_⟩, ?_, ?_, ⟨rfl, rfl⟩, ?_⟩
  · show ndRange (minSender ad) ad.size nd.senderPick ≠ 0
    unfold ndRange
    omega
  · show minSender ad ≤ ndRange (minSender ad) ad.size nd.senderPick
    unfold ndRange
    omega
  · show ndRange (minSender ad) ad.size nd.senderPick < ad.size
    unfold ndRange
    omega
  · cases lockstep <;>
      simp only [updateState, increase] <;>
      split_ifs <;> omega
  · cases lockstep <;>
      simp only [updateState, increase] <;>
      split_ifs <;> omega
  · intro h
    subst h
    constructor <;> simp [updateState, increase]
  · intro h
    subst h
    exact ⟨rfl, rfl⟩
  · intro ndl
    have hstart : (declareState lockstep nd).paid = 1 := rfl
    generalize declareState lockstep nd = t at hstart ⊢
    induction ndl generalizing t with
    | nil => exact hstart
    | cons a tl ih =>
        exact ih (updateState lockstep ad a t) hstart

/-- C6 witness: the amended statement at a concrete lockstep update over an
address space with one contract, no literal zero and client range [1, 4). -/
theorem c6_state_update_witness :
    ((updateState true ⟨1, 4, []⟩ ⟨1, 0, 0, 2, 0, 0, 0, 0, 0⟩
        ⟨2, 3, 4, 5, 1, 6⟩).value = 0
      ∧ (updateState true ⟨1, 4, []⟩ ⟨1, 0, 0, 2, 0, 0, 0, 0, 0⟩
        ⟨2, 3, 4, 5, 1, 6⟩).sender ≠ 0
      ∧ minSender ⟨1, 4, []⟩ ≤
          (updateState true ⟨1, 4, []⟩ ⟨1, 0, 0, 2, 0, 0, 0, 0, 0⟩
            ⟨2, 3, 4, 5, 1, 6⟩).sender
      ∧ (updateState true ⟨1, 4, []⟩ ⟨1, 0, 0, 2, 0, 0, 0, 0, 0⟩
        ⟨2, 3, 4, 5, 1, 6⟩).sender < 4) :=
  (c6_state_update true ⟨1, 4, []⟩ ⟨1, 0, 0, 2, 0, 0, 0, 0, 0⟩
    ⟨2, 3, 4, 5, 1, 6⟩ (Or.inl (by decide)) (by decide)).1

/-! Scheduler switch construction (scheduler/MainFunction.cpp, print_main).
Actors are given as the list, per actor, of the names of its exposed
specializations; case bodies are kept opaque and identified by those names. -/

/-- Mirror of the case-insertion loop of print_main: every specialization of
every actor appends one case whose label is the current size of the case
list (call_cases.add_case(call_cases.size(), body)). -/
def buildCases (specs : List String) : List (Nat × String) :=
  specs.foldl (fun acc s => acc ++ [(acc.length, s)]) []

/-- Mirror of print_main: the cases are built over all (actor,
specialization) pairs, and an empty case count is the fatal modelling error;
otherwise the switch (represented by its case list) is emitted, with
next_call drawn from [0, case count). -/
def print_main (actors : List (List String)) :
    Except String (List (Nat × String)) :=
  let cs := buildCases actors.flatten
  if cs.length = 0 then .error "Bundle has no public or external calls."
  else .ok cs

/-- Mirror of the switch dispatch: the first case whose label equals the
scrutinee is selected; none means the default branch is taken. -/
def selectCase (cs : List (Nat × String)) (v : Nat) : Option (Nat × String) :=
  cs.find? (fun c => c.1 == v)

theorem buildCases_foldl_length (specs : List String) :
    ∀ acc : List (Nat × String),
      (specs.foldl (fun acc s => acc ++ [(acc.length, s)]) acc).length =
        acc.length + specs.length := by
  induction specs with
  | nil => intro acc; simp
  | cons s tl ih =>
      intro acc
      simp only [List.foldl_cons]
      rw [ih]
      simp
      omega

theorem buildCases_foldl_labels (specs : List String) :
    ∀ acc : List (Nat × String),
      (specs.foldl (fun acc s => acc ++ [(acc.length, s)]) acc).map
          Prod.fst =
        acc.map Prod.fst ++ List.range' acc.length specs.length := by
  induction specs with
  | nil => intro acc; simp
  | cons s tl ih =>
      intro acc
      simp only [List.foldl_cons]
      rw [ih]
      simp [List.range'_succ]

theorem buildCases_labels (specs : List String) :
    (buildCases specs).map Prod.fst = List.range specs.length := by
  unfold buildCases
  rw [buildCases_foldl_labels]
  simp [List.range_eq_range']

theorem buildCases_length (specs : List String) :
    (buildCases specs).length = specs.length := by
  unfold buildCases
  rw [buildCases_foldl_length]
  simp

/-- C8: harness generation fails with the fatal modelling error exactly when
the total number of (actor, exposed specialization) pairs is zero, and
otherwise emits the switch with one case per pair. -/
theorem c8_empty_interface_fatal (actors : List (List String)) :
    (print_main actors = .error "Bundle has no public or external calls." ↔
      (actors.map List.length).sum = 0)
    ∧ (∀ sw, print_main actors = .ok sw →
        sw.length = (actors.map List.length).sum) := by
  have hlen : (buildCases actors.flatten).length =
      (actors.map List.length).sum := by
    rw [buildCases_length, List.length_flatten]
  constructor
  · constructor
    · intro h
      by_cases hz : (buildCases actors.flatten).length = 0
      · omega
      · simp only [print_main, if_neg hz] at h
        exact Except.noConfusion h
    · intro h
      have hz : (buildCases actors.flatten).length = 0 := by omega
      simp only [print_main, if_pos hz]
  · intro sw h
    by_cases hz : (buildCases actors.flatten).length = 0
    · simp only [print_main, if_pos hz] at h
      exact Except.noConfusion h
    · simp only [print_main, if_neg hz] at h
      have hsw : buildCases actors.flatten = sw :=
        (Except.ok.injEq _ _).mp h
      rw [← hsw, hlen]

/-- C8 witness: two actors exposing one and two functions give a three-case
switch. -/
theorem c8_empty_interface_fatal_witness :
    ([((0 : Nat), "f"), (1, "g"), (2, "h")] : List (Nat × String)).length =
      ([["f"], ["g", "h"]].map List.length).sum :=
  (c8_empty_interface_fatal [["f"], ["g", "h"]]).2
    [(0, "f"), (1, "g"), (2, "h")] rfl

/-- C10: in the emitted switch the case labels are exactly the contiguous
range 0 .. case_count - 1 (each label is the size of the case list at its
insertion), and since next_call is drawn from [0, case_count), every
possible next_call value selects a case: the default branch, which requires
false, is unreachable. -/
theorem c10_default_unreachable (actors : List (List String))
    (sw : List (Nat × String)) (hok : print_main actors = .ok sw) :
    sw.map Prod.fst = List.range sw.length
    ∧ ∀ pick : Nat,
        (selectCase sw (ndRange 0 sw.length pick)).isSome = true := by
  have hne : (buildCases actors.flatten).length ≠ 0 := by
    intro hz
    simp only [print_main, if_pos hz] at hok
    exact Except.noConfusion hok
  have hsw : sw = buildCases actors.flatten := by
    simp only [print_main, if_neg hne] at hok
    exact ((Except.ok.injEq _ _).mp hok.symm)
  subst hsw
  have hlabels := buildCases_labels actors.flatten
  rw [buildCases_length]
  refine ⟨hlabels, ?_⟩
  intro pick
  have hpos : 0 < actors.flatten.length := by
    rw [buildCases_length] at hne
    omega
  have hv : ndRange 0 actors.flatten.length pick < actors.flatten.length := by
    unfold ndRange
    have := Nat.mod_lt pick (y := actors.flatten.length - 0) (by omega)
    omega
  have hmem : ndRange 0 actors.flatten.length pick ∈
      (buildCases actors.flatten).map Prod.fst := by
    rw [hlabels]
    exact List.mem_range.mpr hv
  rcases List.mem_map.mp hmem with ⟨c, hc, hfst⟩
  rw [selectCase, List.find?_isSome]
  exact ⟨c, hc, by simp [hfst]⟩

/-- C10 witness: with two cases every nondeterministic pick selects a case;
shown at pick 5. -/
theorem c10_default_unreachable_witness :
    (selectCase [((0 : Nat), "f"), (1, "g")]
        (ndRange 0 ([((0 : Nat), "f"), (1, "g")] : List (Nat × String)).length
          5)).isSome = true :=
  (c10_default_unreachable [["f"], ["g"]] [(0, "f"), (1, "g")] rfl).2 5

/-! Key iteration (utils/KeyIterator.cpp) and its use in
MainFunctionGenerator::expand_interference. The C++ vector m_indices is
stored back-first: the head of rindices is m_indices.back(). -/

/-- State of a KeyIterator: M_WIDTH, M_DEPTH, M_WIDTH_OFFSET and the index
vector (back-first). -/
structure KeyIterator where
  width : Nat
  depth : Nat
  offset : Nat
  rindices : List Nat
  deriving Repr, DecidableEq

/-- Mirror of KeyIterator::is_full: the depth is positive and the index
vector has exactly depth entries. -/
def KeyIterator.is_full (s : KeyIterator) : Bool :=
  decide (0 < s.depth ∧ s.rindices.length = s.depth)

/-- Mirror of the increment-and-carry loop of KeyIterator::next on a full
vector: the back entry is incremented, and while the back equals the width
it is popped and the new back incremented, stopping on an empty vector. -/
def bump (w : Nat) : List Nat → List Nat
  | [] => []
  | x :: rest => if x + 1 = w then bump w rest else (x + 1) :: rest

/-- Mirror of KeyIterator::next: a degenerate iterator (zero width, zero
depth, or width not exceeding the offset) reports false; a non-full vector
pushes the offset; a full vector is carried through bump; the return value
is the non-emptiness of the resulting vector. -/
def KeyIterator.next (s : KeyIterator) : Bool × KeyIterator :=
  if s.width = 0 ∨ s.depth = 0 ∨ s.width ≤ s.offset then (false, s)
  else
    let ind := if s.is_full then bump s.width s.rindices
               else s.offset :: s.rindices
    (!ind.isEmpty, { s with rindices := ind })

/-- A fresh KeyIterator as constructed with (width, depth, offset). -/
def initKI (w d o : Nat) : KeyIterator := ⟨w, d, o, []⟩

/-- Mirror of the do-while loop of expand_interference: in each iteration
the current index vector is recorded (in source order) when is_full holds,
then next() is called; the loop stops at the first false. The Bool result
is true exactly when next() returned false within the given fuel, i.e. when
the loop was observed to terminate. -/
def runKI : Nat → KeyIterator → List (List Nat) × Bool
  | 0, _ => ([], false)
  | fuel + 1, s =>
      let here := if s.is_full then [s.rindices.reverse] else []
      match s.next with
      | (true, s2) =>
          let r := runKI fuel s2
          (here ++ r.1, r.2)
      | (false, _) => (here, true)

/-- The lexicographic enumeration of the depth-d tuples over the interval
[o, w), most significant component first: for each first component in
increasing order, all lexicographically ordered continuations follow. -/
def lexEnum (w o : Nat) : Nat → List (List Nat)
  | 0 => [[]]
  | d + 1 =>
      ((List.range (w - o)).map (o + ·)).flatMap fun a =>
        (lexEnum w o d).map (a :: ·)

/-- Value of a back-first index vector read as a little-endian numeral with
digits shifted by o and base W. -/
def valLE (o W : Nat) : List Nat → Nat
  | [] => 0
  | x :: rest => (x - o) + W * valLE o W rest

/-- The back-first index vector of the k-th tuple: d little-endian base-W
digits of k, shifted by o. -/
def tupleOf (o W : Nat) : Nat → Nat → List Nat
  | 0, _ => []
  | d + 1, k => (o + k % W) :: tupleOf o W d (k / W)

/-- Index entries lie in the interval [o, w). -/
def GoodL (o w : Nat) (l : List Nat) : Prop := ∀ x ∈ l, o ≤ x ∧ x < w

theorem tupleOf_length (o W d k : Nat) : (tupleOf o W d k).length = d := by
  induction d generalizing k with
  | zero => rfl
  | succ d ih => simp [tupleOf, ih]

theorem tupleOf_good (o w d k : Nat) (ho : o < w) :
    GoodL o w (tupleOf o (w - o) d k) := by
  induction d generalizing k with
  | zero => intro x hx; cases hx
  | succ d ih =>
      intro x hx
      rcases hx with _ | ⟨_, hx⟩
      · have hm : k % (w - o) < w - o := Nat.mod_lt _ (by omega)
        omega
      · exact ih (k / (w - o)) x (by assumption)

theorem valLE_lt (o w : Nat) (ho : o < w) :
    ∀ l : List Nat, GoodL o w l → valLE o (w - o) l < (w - o) ^ l.length := by
  intro l
  induction l with
  | nil => intro _; simp [valLE]
  | cons x rest ih =>
      intro hg
      have hx := hg x (by simp)
      have hr := ih (fun y hy => hg y (by simp [hy]))
      have hxo : x - o < w - o := by omega
      simp only [valLE, List.length_cons, pow_succ]
      calc x - o + (w - o) * valLE o (w - o) rest
          < (w - o) + (w - o) * valLE o (w - o) rest := by omega
        _ = (w - o) * (valLE o (w - o) rest + 1) := by ring
        _ ≤ (w - o) * (w - o) ^ rest.length := by
            exact Nat.mul_le_mul_left _ (by omega)
        _ = (w - o) ^ rest.length * (w - o) := by ring

theorem tupleOf_valLE (o w : Nat) (ho : o < w) :
    ∀ l : List Nat, GoodL o w l →
      tupleOf o (w - o) l.length (valLE o (w - o) l) = l := by
  intro l
  induction l with
  | nil => intro _; rfl
  | cons x rest ih =>
      intro hg
      have hx := hg x (by simp)
      have hxo : x - o < w - o := by omega
      have hmod : (x - o + (w - o) * valLE o (w - o) rest) % (w - o) =
          x - o := by
        rw [Nat.add_mul_mod_self_left]
        exact Nat.mod_eq_of_lt hxo
      have hdiv : (x - o + (w - o) * valLE o (w - o) rest) / (w - o) =
          valLE o (w - o) rest := by
        rw [Nat.add_mul_div_left _ _ (by omega : 0 < w - o)]
        rw [Nat.div_eq_of_lt hxo]
        omega
      simp only [valLE, List.length_cons, tupleOf, hmod, hdiv]
      rw [ih (fun y hy => hg y (by simp [hy]))]
      have : o + (x - o) = x := by omega
      rw [this]

theorem valLE_replicate_top (o w : Nat) (ho : o < w) (m : Nat) :
    valLE o (w - o) (List.replicate m (w - 1)) = (w - o) ^ m - 1 := by
  induction m with
  | zero => rfl
  | succ m ih =>
      have hW : 1 ≤ (w - o) ^ m := Nat.one_le_pow _ _ (by omega)
      simp only [List.replicate_succ, valLE, ih, pow_succ]
      have h1 : w - 1 - o = w - o - 1 := by omega
      rw [h1]
      have h2 : (w - o) * ((w - o) ^ m - 1) =
          (w - o) * (w - o) ^ m - (w - o) := by
        rw [Nat.mul_sub]
        simp
      rw [h2]
      have h3 : w - o ≤ (w - o) * (w - o) ^ m :=
        le_mul_of_one_le_right (by omega) hW
      have h4 : (w - o) ^ m * (w - o) = (w - o) * (w - o) ^ m := by ring
      omega

theorem valLE_replicate_o (o W m : Nat) :
    valLE o W (List.replicate m o) = 0 := by
  induction m with
  | zero => rfl
  | succ m ih => simp [List.replicate_succ, valLE, ih]

theorem valLE_pad (o W j : Nat) (l : List Nat) :
    valLE o W (List.replicate j o ++ l) = W ^ j * valLE o W l := by
  induction j with
  | zero => simp
  | succ j ih =>
      have hrw : List.replicate (j + 1) o ++ l =
          o :: (List.replicate j o ++ l) := rfl
      rw [hrw]
      simp only [valLE, ih]
      have hoo : o - o = 0 := by omega
      rw [hoo, pow_succ]
      ring

theorem bump_replicate_top (w : Nat) (hw : 0 < w) (m : Nat) :
    bump w (List.replicate m (w - 1)) = [] := by
  induction m with
  | zero => rfl
  | succ m ih =>
      simp only [List.replicate_succ, bump]
      rw [if_pos (by omega)]
      exact ih

theorem bump_spec (o w : Nat) (ho : o < w) :
    ∀ l : List Nat, GoodL o w l → l ≠ List.replicate l.length (w - 1) →
      ∃ j, (bump w l).length + j = l.length
        ∧ GoodL o w (bump w l)
        ∧ bump w l ≠ []
        ∧ (w - o) ^ j * valLE o (w - o) (bump w l) =
            valLE o (w - o) l + 1 := by
  intro l
  induction l with
  | nil => intro _ hne; exact absurd rfl hne
  | cons x rest ih =>
      intro hg hne
      have hx := hg x (by simp)
      have hgr : GoodL o w rest := fun y hy => hg y (by simp [hy])
      by_cases hc : x + 1 = w
      · have hxw : x = w - 1 := by omega
        have hrne : rest ≠ List.replicate rest.length (w - 1) := by
          intro hr
          apply hne
          show x :: rest = List.replicate (x :: rest).length (w - 1)
          rw [List.length_cons, List.replicate_succ, ← hr, hxw]
        rcases ih hgr hrne with ⟨j, hj, hgb, hbne, hval⟩
        refine ⟨j + 1, ?_, ?_, ?_, ?_⟩
        · simp only [bump, if_pos hc]
          simp only [List.length_cons]
          omega
        · simpa only [bump, if_pos hc] using hgb
        · simpa only [bump, if_pos hc] using hbne
        · simp only [bump, if_pos hc, valLE]
          have hxo : x - o = w - o - 1 := by omega
          rw [hxo, pow_succ]
          have hre : (w - o) ^ j * (w - o) *
              valLE o (w - o) (bump w rest) =
              (w - o) * ((w - o) ^ j * valLE o (w - o) (bump w rest)) := by
            ring
          rw [hre, hval]
          have h1 : 1 ≤ w - o := by omega
          ring_nf
          omega
      · refine ⟨0, ?_, ?_, ?_, ?_⟩
        · simp [bump, if_neg hc]
        · intro y hy
          simp only [bump, if_neg hc] at hy
          rcases hy with _ | ⟨_, hy⟩
          · omega
          · exact hgr y (by assumption)
        · simp [bump, if_neg hc]
        · simp only [bump, if_neg hc, valLE, pow_zero, one_mul]
          omega

theorem is_full_iff (w d o : Nat) (rl : List Nat) :
    KeyIterator.is_full ⟨w, d, o, rl⟩ = true ↔ (0 < d ∧ rl.length = d) := by
  simp [KeyIterator.is_full]

theorem next_eq_push (w d o : Nat) (rl : List Nat)
    (hg : ¬(w = 0 ∨ d = 0 ∨ w ≤ o)) (hnf : rl.length ≠ d) :
    KeyIterator.next ⟨w, d, o, rl⟩ = (true, ⟨w, d, o, o :: rl⟩) := by
  have hfull : KeyIterator.is_full ⟨w, d, o, rl⟩ = false := by
    simp [KeyIterator.is_full]
    intro _
    exact hnf
  unfold KeyIterator.next
  rw [if_neg hg]
  simp [hfull]

theorem next_eq_bump (w d o : Nat) (rl : List Nat)
    (hg : ¬(w = 0 ∨ d = 0 ∨ w ≤ o)) (hf : rl.length = d) :
    KeyIterator.next ⟨w, d, o, rl⟩ =
      (!(bump w rl).isEmpty, ⟨w, d, o, bump w rl⟩) := by
  have hd : 0 < d := by omega
  have hfull : KeyIterator.is_full ⟨w, d, o, rl⟩ = true := by
    simp [KeyIterator.is_full, hd, hf]
  unfold KeyIterator.next
  rw [if_neg hg]
  simp [hfull]

theorem runKI_ramp (w d o : Nat) (hg : ¬(w = 0 ∨ d = 0 ∨ w ≤ o)) :
    ∀ (j : Nat) (rl : List Nat) (fuel : Nat), rl.length + j = d →
      runKI (j + fuel) ⟨w, d, o, rl⟩ =
        runKI fuel ⟨w, d, o, List.replicate j o ++ rl⟩ := by
  intro j
  induction j with
  | zero => intro rl fuel _; simp
  | succ j ih =>
      intro rl fuel hlen
      have hnf : rl.length ≠ d := by omega
      have hfull : KeyIterator.is_full ⟨w, d, o, rl⟩ = false := by
        simp [KeyIterator.is_full]
        intro _
        exact hnf
      have hstep : j + 1 + fuel = (j + fuel) + 1 := by omega
      rw [hstep]
      simp only [runKI, hfull, next_eq_push w d o rl hg hnf]
      have hih := ih (o :: rl) fuel (by simp; omega)
      have hlist : List.replicate j o ++ (o :: rl) =
          List.replicate (j + 1) o ++ rl := by
        rw [List.replicate_succ', List.append_assoc]
        rfl
      rw [hih, hlist]
      simp

theorem runKI_main (w d o : Nat) (hd : 0 < d) (ho : o < w) :
    ∀ (m : Nat) (rl : List Nat) (fuel : Nat),
      GoodL o w rl → rl.length = d →
      valLE o (w - o) rl + m = (w - o) ^ d - 1 →
      (m + 1) * (d + 1) ≤ fuel →
      runKI fuel ⟨w, d, o, rl⟩ =
        ((List.range' (valLE o (w - o) rl) (m + 1)).map
          (fun v => (tupleOf o (w - o) d v).reverse), true) := by
  have hg : ¬(w = 0 ∨ d = 0 ∨ w ≤ o) := by omega
  have htopgood : GoodL o w (List.replicate d (w - 1)) := by
    intro x hx
    rcases List.eq_of_mem_replicate hx with rfl
    omega
  intro m
  induction m with
  | zero =>
      intro rl fuel hgood hlen hval hfuel
      have hrlt : rl = tupleOf o (w - o) d (valLE o (w - o) rl) := by
        have := tupleOf_valLE o w ho rl hgood
        rw [hlen] at this
        exact this.symm
      have htop : rl = List.replicate d (w - 1) := by
        have h2 := tupleOf_valLE o w ho (List.replicate d (w - 1)) htopgood
        rw [List.length_replicate, valLE_replicate_top o w ho] at h2
        rw [hrlt]
        have hv : valLE o (w - o) rl = (w - o) ^ d - 1 := by omega
        rw [hv, h2]
      have hfull : KeyIterator.is_full ⟨w, d, o, rl⟩ = true := by
        simp [KeyIterator.is_full, hd, hlen]
      obtain ⟨f, rfl⟩ : ∃ f, fuel = f + 1 := by
        refine ⟨fuel - 1, ?_⟩
        omega
      have hbs : bump w rl = [] := by
        rw [htop]
        exact bump_replicate_top w (by omega) d
      have hnext := next_eq_bump w d o rl hg hlen
      rw [hbs] at hnext
      simp only [runKI, hfull, hnext, List.isEmpty_nil, Bool.not_true]
      simp [List.range'_one, ← hrlt]
  | succ m ih =>
      intro rl fuel hgood hlen hval hfuel
      have hW : 1 ≤ (w - o) ^ d := Nat.one_le_pow _ _ (by omega)
      have hvlt : valLE o (w - o) rl < (w - o) ^ d - 1 := by omega
      have hne : rl ≠ List.replicate rl.length (w - 1) := by
        intro hr
        have := valLE_replicate_top o w ho rl.length
        rw [← hr] at this
        rw [hlen] at this
        omega
      rcases bump_spec o w ho rl hgood hne with ⟨j, hj, hgb, hbne, hbval⟩
      rw [hlen] at hj
      have hblen : 0 < (bump w rl).length := List.length_pos.mpr hbne
      have hjd : j ≤ d - 1 := by omega
      have hA : (m + 1 + 1) * (d + 1) = (m + 1) * (d + 1) + (d + 1) := by
        ring
      have hA1 : 1 ≤ (m + 1) * (d + 1) :=
        Nat.mul_pos (Nat.succ_pos m) (Nat.succ_pos d)
      obtain ⟨f, rfl⟩ : ∃ f, fuel = f + 1 := by
        refine ⟨fuel - 1, ?_⟩
        omega
      have hjf : j ≤ f := by omega
      have hfull : KeyIterator.is_full ⟨w, d, o, rl⟩ = true := by
        simp [KeyIterator.is_full, hd, hlen]
      have hnext := next_eq_bump w d o rl hg hlen
      have hbe : (bump w rl).isEmpty = false := by
        cases hbv : bump w rl with
        | nil => exact absurd hbv hbne
        | cons a b => rfl
      rw [hbe] at hnext
      simp only [runKI, hfull, hnext, Bool.not_false]
      have hsplit : f = j + (f - j) := by omega
      rw [hsplit, runKI_ramp w d o hg j (bump w rl) (f - j) (by omega)]
      have hgood2 : GoodL o w (List.replicate j o ++ bump w rl) := by
        intro x hx
        rcases List.mem_append.mp hx with hx1 | hx2
        · rcases List.eq_of_mem_replicate hx1 with rfl
          omega
        · exact hgb x hx2
      have hlen2 : (List.replicate j o ++ bump w rl).length = d := by
        simp
        omega
      have hval2 : valLE o (w - o) (List.replicate j o ++ bump w rl) =
          valLE o (w - o) rl + 1 := by
        rw [valLE_pad]
        exact hbval
      have hih := ih (List.replicate j o ++ bump w rl) (f - j) hgood2 hlen2
        (by omega) (by omega)
      rw [hih, hval2]
      have hrange : List.range' (valLE o (w - o) rl) (m + 1 + 1) =
          valLE o (w - o) rl ::
            List.range' (valLE o (w - o) rl + 1) (m + 1) :=
        List.range'_succ _ _ _
      rw [hrange]
      simp only [List.map_cons, List.nil_append]
      have hrl : (tupleOf o (w - o) d (valLE o (w - o) rl)).reverse =
          rl.reverse := by
        have := tupleOf_valLE o w ho rl hgood
        rw [hlen] at this
        rw [this]
      rw [hrl]
      simp

theorem runKI_total (w d o : Nat) (hd : 0 < d) (ho : o < w) :
    runKI (d + (w - o) ^ d * (d + 1)) (initKI w d o) =
      ((List.range ((w - o) ^ d)).map
        (fun v => (tupleOf o (w - o) d v).reverse), true) := by
  have hg : ¬(w = 0 ∨ d = 0 ∨ w ≤ o) := by omega
  have hW : 1 ≤ (w - o) ^ d := Nat.one_le_pow _ _ (by omega)
  have hramp := runKI_ramp w d o hg d [] ((w - o) ^ d * (d + 1)) (by simp)
  simp only [initKI]
  rw [hramp]
  have hgood : GoodL o w (List.replicate d o ++ []) := by
    intro x hx
    simp at hx
    omega
  have hmain := runKI_main w d o hd ho ((w - o) ^ d - 1)
    (List.replicate d o ++ []) ((w - o) ^ d * (d + 1)) hgood
    (by simp) (by simp [valLE_replicate_o, valLE_pad, valLE]) ?_
  · rw [hmain]
    simp only [List.append_nil, valLE_replicate_o]
    have h1 : (w - o) ^ d - 1 + 1 = (w - o) ^ d := by omega
    rw [h1, List.range_eq_range']
  · have h1 : (w - o) ^ d - 1 + 1 = (w - o) ^ d := by omega
    rw [h1]

theorem tupleOf_split (o W : Nat) (hW : 0 < W) :
    ∀ (d a r : Nat), r < W ^ d →
      tupleOf o W (d + 1) (a * W ^ d + r) =
        tupleOf o W d r ++ [o + a % W] := by
  intro d
  induction d with
  | zero =>
      intro a r hr
      have hr0 : r = 0 := by
        have h1 : W ^ 0 = 1 := pow_zero W
        omega
      subst hr0
      simp [tupleOf]
  | succ d ih =>
      intro a r hr
      have hsplit : a * W ^ (d + 1) + r = W * (a * W ^ d) + r := by ring
      have hmod : (a * W ^ (d + 1) + r) % W = r % W := by
        rw [hsplit, Nat.mul_add_mod]
      have hdiv : (a * W ^ (d + 1) + r) / W = a * W ^ d + r / W := by
        rw [hsplit, Nat.mul_add_div hW]
      have hrd : r / W < W ^ d := by
        rw [Nat.div_lt_iff_lt_mul hW]
        calc r < W ^ (d + 1) := hr
          _ = W ^ d * W := by rw [pow_succ]
      have hih := ih a (r / W) hrd
      show (o + (a * W ^ (d + 1) + r) % W) ::
        tupleOf o W (d + 1) ((a * W ^ (d + 1) + r) / W) = _
      rw [hmod, hdiv, hih]
      rfl

theorem range_mul_flatMap (n m : Nat) :
    List.range (n * m) =
      (List.range n).flatMap (fun a => (List.range m).map (fun r => a * m + r)) := by
  induction n with
  | zero => simp
  | succ n ih =>
      rw [Nat.succ_mul, List.range_add, ih, List.range_succ,
        List.flatMap_append]
      simp

theorem lexEnum_eq (w o : Nat) (ho : o < w) :
    ∀ d, lexEnum w o d =
      (List.range ((w - o) ^ d)).map
        (fun k => (tupleOf o (w - o) d k).reverse) := by
  have hW : 0 < w - o := by omega
  intro d
  induction d with
  | zero => simp [lexEnum, tupleOf]
  | succ d ih =>
      rw [show (w - o) ^ (d + 1) = (w - o) * (w - o) ^ d from pow_succ' _ _]
      rw [range_mul_flatMap, List.map_flatMap]
      simp only [lexEnum, ih, List.flatMap_map, List.map_map]
      simp only [List.flatMap]
      apply congrArg
      apply List.map_congr_left
      intro a ha
      rw [List.mem_range] at ha
      apply List.map_congr_left
      intro r hr
      rw [List.mem_range] at hr
      simp only [Function.comp]
      rw [tupleOf_split o (w - o) hW d a r hr]
      rw [Nat.mod_eq_of_lt ha]
      simp

theorem lexEnum_mem (w o : Nat) (ho : o < w) :
    ∀ d (t : List Nat),
      t ∈ lexEnum w o d ↔ (t.length = d ∧ GoodL o w t) := by
  intro d
  induction d with
  | zero =>
      intro t
      constructor
      · intro ht
        simp [lexEnum] at ht
        subst ht
        exact ⟨rfl, fun x hx => absurd hx (List.not_mem_nil x)⟩
      · intro ⟨hlen, _⟩
        rcases List.length_eq_zero.mp hlen with rfl
        simp [lexEnum]
  | succ d ih =>
      intro t
      constructor
      · intro ht
        simp only [lexEnum, List.mem_flatMap, List.mem_map,
          List.mem_range] at ht
        rcases ht with ⟨a, ⟨a0, ha0, rfl⟩, t0, ht0, rfl⟩
        rcases (ih t0).mp ht0 with ⟨hlen, hgood⟩
        refine ⟨by simp [hlen], ?_⟩
        intro x hx
        rcases hx with _ | ⟨_, hx⟩
        · omega
        · exact hgood x (by assumption)
      · intro ⟨hlen, hgood⟩
        cases t with
        | nil => simp at hlen
        | cons x t0 =>
            have hx := hgood x (by simp)
            have hgood0 : GoodL o w t0 := fun y hy => hgood y (by simp [hy])
            have hlen0 : t0.length = d := by
              simp at hlen
              omega
            simp only [lexEnum, List.mem_flatMap, List.mem_map,
              List.mem_range]
            exact ⟨x, ⟨x - o, by omega, by omega⟩, t0,
              (ih t0).mpr ⟨hlen0, hgood0⟩, rfl⟩

theorem pairwise_flatMap_lex (ts : List (List Nat))
    (hts : ts.Pairwise (List.Lex (· < ·))) :
    ∀ as : List Nat, as.Pairwise (· < ·) →
      (as.flatMap fun a => ts.map (a :: ·)).Pairwise
        (List.Lex (· < ·)) := by
  intro as
  induction as with
  | nil => intro _; simp
  | cons a as' ih =>
      intro has
      rcases List.pairwise_cons.mp has with ⟨hlt, has'⟩
      rw [List.flatMap_cons]
      apply List.pairwise_append.mpr
      refine ⟨?_, ih has', ?_⟩
      · exact hts.map (a :: ·) (fun t1 t2 h => List.Lex.cons h)
      · intro x hx y hy
        rcases List.mem_map.mp hx with ⟨t1, _, rfl⟩
        rcases List.mem_flatMap.mp hy with ⟨a2, ha2, hy2⟩
        rcases List.mem_map.mp hy2 with ⟨t2, _, rfl⟩
        exact List.Lex.rel (hlt a2 ha2)

theorem lexEnum_pairwise (w o : Nat) :
    ∀ d, (lexEnum w o d).Pairwise (List.Lex (· < ·)) := by
  intro d
  induction d with
  | zero => simp [lexEnum]
  | succ d ih =>
      apply pairwise_flatMap_lex (lexEnum w o d) ih
      exact (List.pairwise_lt_range _).map (o + ·)
        (fun a b h => by show o + a < o + b; omega)

/-- C9: for width w, depth d with 1 <= d and offset o < w, the do-while loop
over KeyIterator::next terminates (the Bool component of runKI reports that
next returned false within the stated fuel) and the index vectors observed
in the is_full states are exactly the (w-o)^d tuples of length d over
[o, w), each exactly once, in lexicographic order: the trace equals lexEnum,
which has length (w-o)^d, contains exactly the length-d tuples over [o, w),
and is strictly lexicographically sorted (hence duplicate-free). When w = 0,
d = 0 or w <= o, the first call to next returns false leaving the iterator
unchanged, is_full does not hold, and the loop records nothing. -/
theorem c9_key_iterator (w d o : Nat) :
    (1 ≤ d → o < w →
      runKI (d + (w - o) ^ d * (d + 1)) (initKI w d o) =
        (lexEnum w o d, true)
      ∧ (lexEnum w o d).length = (w - o) ^ d
      ∧ (∀ t, t ∈ lexEnum w o d ↔
          (t.length = d ∧ ∀ x ∈ t, o ≤ x ∧ x < w))
      ∧ (lexEnum w o d).Pairwise (List.Lex (· < ·)))
    ∧ ((w = 0 ∨ d = 0 ∨ w ≤ o) →
        KeyIterator.next (initKI w d o) = (false, initKI w d o)
        ∧ KeyIterator.is_full (initKI w d o) = false
        ∧ ∀ fuel, 1 ≤ fuel → runKI fuel (initKI w d o) = ([], true)) := by
  constructor
  · intro hd ho
    refine ⟨?_, ?_, fun t => lexEnum_mem w o ho d t, lexEnum_pairwise w o d⟩
    · rw [lexEnum_eq w o ho d]
      exact runKI_total w d o hd ho
    · rw [lexEnum_eq w o ho d]
      simp
  · intro hdeg
    have hnext : KeyIterator.next (initKI w d o) = (false, initKI w d o) := by
      unfold KeyIterator.next initKI
      rw [if_pos hdeg]
    have hfull : KeyIterator.is_full (initKI w d o) = false := by
      simp [KeyIterator.is_full, initKI]
      omega
    refine ⟨hnext, hfull, ?_⟩
    intro fuel hfuel
    obtain ⟨f, rfl⟩ : ∃ f, fuel = f + 1 := ⟨fuel - 1, by omega⟩
    simp only [runKI, hfull, hnext]
    rfl

/-- C9 witness: for width 2, depth 2, offset 0 the loop records exactly the
four tuples in lexicographic order and terminates within 14 calls; for the
degenerate width 1, depth 1, offset 1 the first next call reports false. -/
theorem c9_key_iterator_witness :
    runKI 14 (initKI 2 2 0) = ([[0, 0], [0, 1], [1, 0], [1, 1]], true)
    ∧ KeyIterator.next (initKI 1 1 1) = (false, initKI 1 1 1) := by
  constructor
  · have h := ((c9_key_iterator 2 2 0).1 (by omega) (by omega)).1
    have hn : (2 : Nat) + (2 - 0) ^ 2 * (2 + 1) = 14 := by norm_num
    have hl : lexEnum 2 0 2 = [[0, 0], [0, 1], [1, 0], [1, 1]] := by decide
    rw [hn, hl] at h
    exact h
  · exact ((c9_key_iterator 1 1 1).2 (by omega)).1

end Smartace
